import Mathlib

/-!
Shallow embedding of the `ssfi` repository core:
  * `stripedhashcounter` (src/stripedhash.h): open-addressed, quadratically
    probed counting hash table with generations, tombstones and resize;
  * `kjp::unboundedQueue` (src/bdqueue.h): unbounded FIFO queue;
  * the result printer filter (src/ssfi.cpp, `print_results`).

The embedding is sequential: each C++ operation is modelled as a pure
function on an explicit state.  Machine `int` values are modelled as `Int`
with truncating `%` (`Int.tmod`), and the implicit `int` → `size_t`
conversion performed by `% table.size()` is modelled explicitly
(`toSizeT` below, reduction modulo 2^64 of the signed value).
-/

namespace SSFI

/-- C++ `%` on `int` truncates toward zero: `Int.tmod`. -/
def cppMod (a b : Int) : Int := Int.tmod a b

/-- Conversion `int` → `size_t` (64-bit unsigned): value modulo 2^64.
Used implicitly by the source whenever a signed slot expression is reduced
`% table.size()` (a `size_t`). -/
def toSizeT (v : Int) : Nat := (v % (2:Int)^64).toNat

/-- `expr % table.size()` for a signed `int` expression `expr`:
convert to `size_t`, then take the unsigned remainder. -/
def idxMod (v : Int) (sz : Nat) : Nat := toSizeT v % sz

/-- `stripedhashcounter::element = std::pair<K,int>`: key and count. -/
structure Elem (K : Type) where
  first : K
  second : Int
deriving Repr, DecidableEq

/-- One slot of a generation's table: `nullptr` (never used), `&sentinel`
(tombstoned), or a pointer to a live element. -/
inductive Slot (K : Type) where
  | empty
  | tomb
  | occ (e : Elem K)
deriving Repr, DecidableEq

/-- Hash function interface; the source declares
`int hash_func(const K&, int ha, int hp) const` with per-type
specialisations. -/
class HashFn (K : Type) where
  hash_func : K → Int → Int → Int

/-- Specialisation for `int` keys: `return ha * i % hp;`
(src/stripedhash.h:298-301). -/
instance : HashFn Int := ⟨fun i ha hp => cppMod (ha * i) hp⟩

/-- Specialisation for `std::string` keys (src/stripedhash.h:302-309):
`for (const auto it : s) ret = (ret * ha + it) % hp;`.
The string is modelled as the list of its `char` values, which are
*signed* (range -128..127) on the target platform. -/
def hash_func_string (s : List Int) (ha hp : Int) : Int :=
  s.foldl (fun r c => cppMod (r * ha + c) hp) 0

instance : HashFn (List Int) := ⟨hash_func_string⟩

/-- `stripedhashcounter::config` (src/stripedhash.h:42-81): one generation.
The member `hb` is declared but never initialised nor read; it is omitted. -/
structure Config (K : Type) where
  table : List (Slot K)
  deleted : List (Elem K)
  ha : Int
  hp : Int
  resizing : Bool
deriving Repr, DecidableEq

/-- The `config(int sz, std::default_random_engine g)` constructor
(src/stripedhash.h:50-54): table of `sz` null slots,
`ha = uniform_int_distribution<int>(1, sz-1)(g)` — the drawn value is the
oracle argument `d` — and `hp = 2 * sz + 1`; `resizing = false`. -/
def mkConfig (K : Type) (sz : Nat) (d : Int) : Config K :=
  { table := List.replicate sz Slot.empty
  , deleted := []
  , ha := d
  , hp := 2 * (sz : Int) + 1
  , resizing := false }

/-! ### Probe sequences

Each operation's loop computes the slots it visits from the hash value
(`base`), the iteration counter `i` and the table size alone — never from
the table contents — so the visited-slot sequence of each loop is factored
out below and the loop bodies are modelled as scans over it.

`insert` (src/stripedhash.h:198) and `remove` (:235) recompute the slot
from the unchanged `base` each iteration: `int slot = (base + i*i) % size`.

`contains` (:176-178) and `resize_helper` (:99-102) instead update the
slot variable in place: `slot = (slot + i*i) % size`, so each probe adds
`i*i` to the previous *reduced* slot. -/

/-- Slots probed by `insert`: `(base + i*i) % size` for `i ∈ [0, mc)`. -/
def insertProbes (base : Int) (sz mc : Nat) : List Nat :=
  (List.range mc).map fun i => idxMod (base + (i : Int) * (i : Int)) sz

/-- Slots probed by `remove`: `(base + i*i) % size` for `i ∈ [0, mc)`. -/
def removeProbes (base : Int) (sz mc : Nat) : List Nat :=
  (List.range mc).map fun i => idxMod (base + (i : Int) * (i : Int)) sz

/-- Cumulative probing: `slot = (slot + i*i) % size` for each `i` drawn
from the index list, starting from the signed hash value. -/
def cumulProbes (sz : Nat) : Int → List Nat → List Nat
  | _, [] => []
  | slot, i :: rest =>
    idxMod (slot + (i : Int) * (i : Int)) sz ::
      cumulProbes sz (idxMod (slot + (i : Int) * (i : Int)) sz : Nat) rest

/-- Slots probed by `contains`: cumulative, for `i ∈ [0, mc)`. -/
def containsProbes (base : Int) (sz mc : Nat) : List Nat :=
  cumulProbes sz base (List.range mc)

/-- Slots probed by the rehash loop of `resize_helper`: cumulative,
for `i ∈ [0, mc)`. -/
def resizeProbes (base : Int) (sz mc : Nat) : List Nat :=
  cumulProbes sz base (List.range mc)

/-! ### The operations -/

/-- `current->table.at(slot)` / `newcfg->table[slot]`: read a slot.
All computed indices are in range (see the bounds lemmas below), so the
out-of-range default never actually matters. -/
def slotAt (tbl : List (Slot K)) (s : Nat) : Slot K := tbl.getD s Slot.empty

/-- Loop body of `contains` (src/stripedhash.h:173-186) over its probed
slots: a null slot returns 0; the tombstone sentinel is a valid element
pointer holding the default-constructed pair `(default, 0)`, so its key
is compared like any other; a key match returns the stored count. -/
def containsScan [DecidableEq K] [Inhabited K]
    (tbl : List (Slot K)) (key : K) : List Nat → Int
  | [] => 0
  | s :: rest =>
    match slotAt tbl s with
    | Slot.empty => 0
    | Slot.tomb => if key = (default : K) then 0 else containsScan tbl key rest
    | Slot.occ e => if e.first = key then e.second else containsScan tbl key rest

/-- Result of one full probe pass of `insert`. -/
inductive InsRes (K : Type) where
  | done (tbl : List (Slot K)) (ret : Int)
  | retry
  | full
deriving Repr, DecidableEq

/-- Loop body of `insert` (src/stripedhash.h:192-221) over its probed
slots: per probe, after taking the stripe lock the code re-checks
`current->resizing` (retry if set); a free slot (null or tombstone)
receives a fresh element with count 1; a key match increments in place;
`mc` collisions yield `full` (the caller then resizes). -/
def insertScan [DecidableEq K] (resizing : Bool)
    (tbl : List (Slot K)) (key : K) : List Nat → InsRes K
  | [] => .full
  | s :: rest =>
    if resizing then .retry else
    match slotAt tbl s with
    | Slot.empty => .done (tbl.set s (Slot.occ ⟨key, 1⟩)) 1
    | Slot.tomb => .done (tbl.set s (Slot.occ ⟨key, 1⟩)) 1
    | Slot.occ e =>
      if e.first = key then
        .done (tbl.set s (Slot.occ ⟨e.first, e.second + 1⟩)) (e.second + 1)
      else insertScan resizing tbl key rest

/-- Result of one full probe pass of `remove`. -/
inductive RemRes (K : Type) where
  | done (tbl : List (Slot K)) (deleted : List (Elem K)) (ret : Int)
  | retry
  | full
deriving Repr, DecidableEq

/-- Loop body of `remove` (src/stripedhash.h:229-256) over its probed
slots: a free slot returns 0; a key match writes the tombstone sentinel,
appends the element to the generation's deferred-deletion list and
returns the prior count; `mc` collisions fall out of the `for` loop
(`full`) — and the enclosing `while(true)` simply starts over. -/
def removeScan [DecidableEq K] (resizing : Bool)
    (tbl : List (Slot K)) (deleted : List (Elem K)) (key : K) : List Nat → RemRes K
  | [] => .full
  | s :: rest =>
    if resizing then .retry else
    match slotAt tbl s with
    | Slot.empty => .done tbl deleted 0
    | Slot.tomb => .done tbl deleted 0
    | Slot.occ e =>
      if e.first = key then .done (tbl.set s Slot.tomb) (deleted ++ [e]) e.second
      else removeScan resizing tbl deleted key rest

/-- The live (non-null, non-tombstoned) elements of a table, in slot
order. -/
def liveElems {K : Type} : List (Slot K) → List (Elem K) :=
  List.filterMap fun s => match s with | Slot.occ e => some e | _ => none

/-- Placement loop of `resize_helper` (src/stripedhash.h:100-109) for one
element over its probed slots: only `nullptr` frees a slot (a fresh table
has no tombstones); `none` models falling out after `mc` collisions
(`resize_helper` then returns `nullptr`). -/
def rhPlaceScan (tbl : List (Slot K)) (e : Elem K) : List Nat → Option (List (Slot K))
  | [] => none
  | s :: rest =>
    match slotAt tbl s with
    | Slot.empty => some (tbl.set s (Slot.occ e))
    | _ => rhPlaceScan tbl e rest

/-- The element loop of `resize_helper` (src/stripedhash.h:97-114):
every live element of the old table, in slot order, is placed into the new
table; `sz` is the (constant) new table size. -/
def rhGo [HashFn K] (mc sz : Nat) (ha hp : Int) :
    List (Slot K) → List (Elem K) → Option (List (Slot K))
  | tbl, [] => some tbl
  | tbl, e :: rest =>
    match rhPlaceScan tbl e (resizeProbes (HashFn.hash_func e.first ha hp) sz mc) with
    | some tbl2 => rhGo mc sz ha hp tbl2 rest
    | none => none

/-- `resize_helper` (src/stripedhash.h:90-120): build a fresh generation
of size `newsz` (random draw `d`), rehash every live element of `current`
into it with the *new* generation's hash parameters; `none` models the
`nullptr` return on overflow. -/
def resize_helper [HashFn K] (mc : Nat) (cur : Config K) (newsz : Nat) (d : Int) :
    Option (Config K) :=
  let newcfg := mkConfig K newsz d
  (rhGo mc newsz newcfg.ha newcfg.hp newcfg.table (liveElems cur.table)).map
    fun t => { newcfg with table := t }

/-- The `do { newsz *= 2; newcfg = resize_helper(old, newsz); } while
(newcfg == nullptr)` loop of `resize` (src/stripedhash.h:139-142), with
fuel for the unbounded retry; `d` is the random-draw oracle, indexed by
the attempted size. -/
def resizeLoop [HashFn K] (mc : Nat) (cur : Config K) (d : Nat → Int) :
    Nat → Nat → Option (Config K)
  | _, 0 => none
  | newsz, fuel + 1 =>
    match resize_helper mc cur (newsz * 2) (d (newsz * 2)) with
    | some c => some c
    | none => resizeLoop mc cur d (newsz * 2) fuel

/-- `resize` (src/stripedhash.h:122-160): both early-abort checks of
`old->resizing` (before and after acquiring every stripe lock) return
with the table unchanged; otherwise the doubling loop runs and the new
generation is published. -/
def resize [HashFn K] (mc : Nat) (cur : Config K) (d : Nat → Int) (fuel : Nat) :
    Option (Config K) :=
  if cur.resizing then some cur
  else if cur.resizing then some cur
  else resizeLoop mc cur d cur.table.length fuel

/-- The table object: current generation plus `maxcollisions`
(`oldcfg` only keeps the previous generation alive and never affects
results; it is omitted). -/
structure SHC (K : Type) where
  cfg : Config K
  maxcollisions : Nat
deriving Repr, DecidableEq

/-- The `stripedhashcounter(int size, int mc)` constructor
(src/stripedhash.h:162-166); `d` is the random draw for the first
generation. -/
def SHC.init (K : Type) (sz mc : Nat) (d : Int) : SHC K :=
  ⟨mkConfig K sz d, mc⟩

/-- `contains(key)` (src/stripedhash.h:173-186). -/
def containsModel [DecidableEq K] [Inhabited K] [HashFn K]
    (mc : Nat) (cfg : Config K) (key : K) : Int :=
  containsScan cfg.table key
    (containsProbes (HashFn.hash_func key cfg.ha cfg.hp) cfg.table.length mc)

/-- `insert(key)` (src/stripedhash.h:188-227): probe pass; on `retry`
(resize observed) start over; on `full` call `resize` and start over.
`fuel` bounds the unbounded `while(true)`; `rd`/`rsFuel` feed `resize`. -/
def insertLoop [DecidableEq K] [HashFn K] (rd : Nat → Int) (rsFuel : Nat) :
    SHC K → K → Nat → Option (SHC K × Int)
  | _, _, 0 => none
  | st, key, fuel + 1 =>
    let cur := st.cfg
    let base := HashFn.hash_func key cur.ha cur.hp
    match insertScan cur.resizing cur.table key
        (insertProbes base cur.table.length st.maxcollisions) with
    | .done tbl r => some ({ st with cfg := { cur with table := tbl } }, r)
    | .retry => insertLoop rd rsFuel st key fuel
    | .full =>
      match resize st.maxcollisions cur rd rsFuel with
      | some c => insertLoop rd rsFuel { st with cfg := c } key fuel
      | none => none

/-- `remove(key)` (src/stripedhash.h:229-256): probe pass; on `retry` or
on falling out of the probe loop (`full`) the `while(true)` starts over
with unchanged state. `fuel` bounds it. -/
def removeLoop [DecidableEq K] [HashFn K] :
    SHC K → K → Nat → Option (SHC K × Int)
  | _, _, 0 => none
  | st, key, fuel + 1 =>
    let cur := st.cfg
    let base := HashFn.hash_func key cur.ha cur.hp
    match removeScan cur.resizing cur.table cur.deleted key
        (removeProbes base cur.table.length st.maxcollisions) with
    | .done tbl del r =>
      some ({ st with cfg := { cur with table := tbl, deleted := del } }, r)
    | .retry => removeLoop st key fuel
    | .full => removeLoop st key fuel

/-! ### `extract_top` (src/stripedhash.h:260-295)

The scan keeps a `std::vector` of exactly `count` entries, initialised to
`count` copies of the default-constructed sentinel pair `(default, 0)`,
maintained as a `std::heap` under the comparator
`(e1.second > e2.second) || (e1.second == e2.second && e1.first < e2.first)`.
The heap root (`heap->front()`) is therefore the *worst* kept entry: the
one with the minimal count, and among those the maximal key.  Since that
order is total up to value-equality of `(key, count)` pairs, the heap is
modelled as a plain list with an explicit worst-element selection: one
`pop_heap`/`pop_back` removes the worst entry, `push_back`/`push_heap`
adds the scanned element.  The final `std::sort` is modelled by
`List.mergeSort` under the non-strict closure of its strict comparator. -/

/-- The default-constructed `element sentinel` member
(src/stripedhash.h:40): `(K(), 0)`. -/
def sentinelElem (K : Type) [Inhabited K] : Elem K := ⟨default, 0⟩

/-- `worse e1 e2`: `e1` ranks strictly below `e2` in the heap, i.e. the
heap comparator orders `e2` before `e1` and not conversely. -/
def worse [LinearOrder K] (e1 e2 : Elem K) : Bool :=
  e1.second < e2.second || (e1.second == e2.second && decide (e2.first < e1.first))

/-- The heap root: the worst entry of a nonempty heap
(what `heap->front()` exposes for a valid `std::heap`). -/
def rootOf [LinearOrder K] : List (Elem K) → Option (Elem K)
  | [] => none
  | x :: xs => some (xs.foldl (fun m e => if worse e m then e else m) x)

/-- One iteration of the scan loop of `extract_top` for a live element
`e`: the skip test `e.second < front.second || (e.second == front.second
&& e.first > front.first)` reads `heap->front()`, which is undefined
behaviour (`none`) on an empty heap (`count = 0`); otherwise either skip,
or replace the worst entry by `e`. -/
def extractStep [LinearOrder K] (h : List (Elem K)) (e : Elem K) :
    Option (List (Elem K)) :=
  match rootOf h with
  | none => none
  | some r =>
    if e.second < r.second || (e.second == r.second && decide (r.first < e.first)) then
      some h
    else some ((h.erase r) ++ [e])

/-- The slot scan of `extract_top`: null and tombstoned slots are skipped
before the heap is touched. -/
def extractGo [LinearOrder K] :
    List (Elem K) → List (Slot K) → Option (List (Elem K))
  | h, [] => some h
  | h, Slot.empty :: rest => extractGo h rest
  | h, Slot.tomb :: rest => extractGo h rest
  | h, Slot.occ e :: rest =>
    match extractStep h e with
    | some h2 => extractGo h2 rest
    | none => none

/-- Non-strict closure of the final `std::sort` comparator
`a.second == b.second ? a.first < b.first : a.second > b.second`:
count descending, ties key ascending. -/
def sortLE [LinearOrder K] (e1 e2 : Elem K) : Bool :=
  e2.second < e1.second || (e1.second == e2.second && decide (e1.first ≤ e2.first))

/-- `extract_top(count)` (src/stripedhash.h:260-295): scan all slots of
the current generation against a heap of `count` sentinel-initialised
entries, then sort; `none` models the undefined `heap->front()` read when
`count = 0` and a live element is scanned. -/
def extract_top [LinearOrder K] [Inhabited K] (count : Nat) (cfg : Config K) :
    Option (List (Elem K)) :=
  (extractGo (List.replicate count (sentinelElem K)) cfg.table).map
    fun h => h.mergeSort sortLE

/-- The filter applied by `print_results` (src/ssfi.cpp:276-280):
`if (!it.second) continue;` — entries with count 0 are never printed. -/
def printedEntries {K : Type} (v : List (Elem K)) : List (Elem K) :=
  v.filter fun e => !(e.second == 0)

end SSFI

/-! ### `kjp::unboundedQueue` (src/bdqueue.h) -/

namespace kjp

/-- The linked structure of `unboundedQueue`: `chain` holds the node
values from the node `head` points at (a consumed dummy) through the node
`tail` points at; `size` is the atomic element counter.  The queue's
logical contents are the values strictly after the head node. -/
structure unboundedQueue (T : Type) where
  chain : List T
  size : Int
deriving Repr, DecidableEq

/-- The constructor (src/bdqueue.h:39-42): one default-constructed dummy
node, `size = 0`. -/
def mkQueue (T : Type) [Inhabited T] : unboundedQueue T :=
  ⟨[default], 0⟩

/-- `enq(item)` (src/bdqueue.h:53-73): link a new node after `tail`,
advance `tail`, `size.fetch_add(1)` (the wakeup logic has no effect on
the queue contents). -/
def enq (q : unboundedQueue T) (item : T) : unboundedQueue T :=
  ⟨q.chain ++ [item], q.size + 1⟩

/-- `deq()` (src/bdqueue.h:77-95): block (`none`) while `size == 0`;
otherwise take `n = head->next`, return its value, free the old head and
advance `head` to `n`.  The second `none` arm models the null dereference
that a broken `size` would cause; it is unreachable for well-formed
queues. -/
def deq (q : unboundedQueue T) : Option (T × unboundedQueue T) :=
  if q.size = 0 then none
  else
    match q.chain with
    | _ :: n :: rest => some (n, ⟨n :: rest, q.size - 1⟩)
    | _ => none

/-- Repeated dequeuing: collect up to `n` values, stopping if blocked. -/
def deqN : unboundedQueue T → Nat → List T
  | _, 0 => []
  | q, n + 1 =>
    match deq q with
    | none => []
    | some (x, q2) => x :: deqN q2 n

/-- Enqueue a list of items in order (a single producer's calls). -/
def enqAll (q : unboundedQueue T) (xs : List T) : unboundedQueue T :=
  xs.foldl enq q

/-- Modelled from the spec: the functional list the queue refines —
`enqueue` appends at the tail. -/
def specEnq (l : List T) (x : T) : List T := l ++ [x]

/-- Modelled from the spec: `dequeue` removes at the head. -/
def specDeq : List T → Option (T × List T)
  | [] => none
  | x :: r => some (x, r)

/-- Modelled from the spec: repeated head removal. -/
def specDeqN : List T → Nat → List T
  | _, 0 => []
  | l, n + 1 =>
    match specDeq l with
    | none => []
    | some (x, r) => x :: specDeqN r n

/-- Abstraction function: the queue's logical contents are the node
values strictly after the head node. -/
def queueAbs (q : unboundedQueue T) : List T := q.chain.tail

/-- Well-formedness: the head node exists and `size` counts the nodes
after it. -/
def QWF (q : unboundedQueue T) : Prop :=
  q.chain ≠ [] ∧ q.size = (q.chain.length : Int) - 1

end kjp

/-! ## Helper lemmas -/

namespace SSFI

variable {K : Type} {α : Type}

lemma idxMod_lt (v : Int) {sz : Nat} (h : 0 < sz) : idxMod v sz < sz :=
  Nat.mod_lt _ h

lemma getD_set_self :
    ∀ (l : List α) (n : Nat) (a d : α), n < l.length → (l.set n a).getD n d = a
  | [], n, _, _, h => absurd h (by simp)
  | _ :: _, 0, _, _, _ => rfl
  | _ :: xs, n + 1, a, d, h => getD_set_self xs n a d (by simpa using h)

lemma getD_set_ne :
    ∀ (l : List α) (m n : Nat) (a d : α), m ≠ n →
      (l.set m a).getD n d = l.getD n d
  | [], _, _, _, _, _ => rfl
  | _ :: _, 0, 0, _, _, h => absurd rfl h
  | _ :: _, 0, _ + 1, _, _, _ => rfl
  | _ :: _, _ + 1, 0, _, _, _ => rfl
  | _ :: xs, m + 1, n + 1, a, d, h =>
    getD_set_ne xs m n a d (fun e => h (by rw [e]))

lemma mem_of_getD_ne :
    ∀ (l : List α) (n : Nat) (d x : α), l.getD n d = x → x ≠ d → x ∈ l
  | [], _, _, _, hx, hne => absurd hx.symm hne
  | y :: _, 0, _, x, hx, _ => by
      simp only [List.getD_cons_zero] at hx; exact hx ▸ List.mem_cons_self y _
  | _ :: ys, n + 1, d, x, hx, hne => by
      simp only [List.getD_cons_succ] at hx
      exact List.mem_cons_of_mem _ (mem_of_getD_ne ys n d x hx hne)

lemma slotAt_set_self {tbl : List (Slot K)} (s : Nat) (v : Slot K)
    (h : s < tbl.length) : slotAt (tbl.set s v) s = v :=
  getD_set_self tbl s v Slot.empty h

lemma slotAt_set_ne {tbl : List (Slot K)} (m n : Nat) (v : Slot K)
    (h : m ≠ n) : slotAt (tbl.set m v) n = slotAt tbl n :=
  getD_set_ne tbl m n v Slot.empty h

lemma liveElems_cons_occ (e : Elem K) (t : List (Slot K)) :
    liveElems (Slot.occ e :: t) = e :: liveElems t := rfl

lemma liveElems_cons_empty (t : List (Slot K)) :
    liveElems (Slot.empty :: t) = liveElems t := rfl

lemma liveElems_cons_tomb (t : List (Slot K)) :
    liveElems (Slot.tomb :: t) = liveElems t := rfl

lemma mem_liveElems_of_getD {tbl : List (Slot K)} {s : Nat} {e : Elem K}
    (hg : slotAt tbl s = Slot.occ e) : e ∈ liveElems tbl := by
  have hmem : Slot.occ e ∈ tbl := mem_of_getD_ne tbl s _ _ hg (by simp)
  exact List.mem_filterMap.mpr ⟨Slot.occ e, hmem, rfl⟩

lemma liveElems_set_perm :
    ∀ (tbl : List (Slot K)) (s : Nat) (e : Elem K), s < tbl.length →
      slotAt tbl s = Slot.empty →
      (liveElems (tbl.set s (Slot.occ e))).Perm (e :: liveElems tbl)
  | [], s, _, h, _ => absurd h (by simp)
  | x :: t, 0, e, _, hg => by
      simp only [slotAt, List.getD_cons_zero] at hg
      subst hg
      simp [liveElems_cons_occ, liveElems_cons_empty]
  | x :: t, s + 1, e, h, hg => by
      simp only [slotAt, List.getD_cons_succ] at hg
      have ih := liveElems_set_perm t s e (by simpa using h) hg
      cases x with
      | empty => simpa [List.set, liveElems_cons_empty] using ih
      | tomb => simpa [List.set, liveElems_cons_tomb] using ih
      | occ y =>
          simp only [List.set, liveElems_cons_occ]
          exact (ih.cons y).trans (List.Perm.swap e y _)

/-- No slot of the table is the tombstone sentinel. -/
def NoTombs (tbl : List (Slot K)) : Prop := Slot.tomb ∉ tbl

lemma noTombs_replicate (n : Nat) : NoTombs (List.replicate n (Slot.empty : Slot K)) := by
  intro h
  have := List.eq_of_mem_replicate h
  exact absurd this (by simp)

lemma noTombs_set_occ {tbl : List (Slot K)} (hnt : NoTombs tbl) (s : Nat) (e : Elem K) :
    NoTombs (tbl.set s (Slot.occ e)) := by
  intro h
  rcases List.mem_or_eq_of_mem_set h with h2 | h2
  · exact hnt h2
  · exact absurd h2 (by simp)

lemma getD_ne_tomb_of_noTombs {tbl : List (Slot K)} (hnt : NoTombs tbl) (s : Nat) :
    slotAt tbl s ≠ Slot.tomb := by
  intro h
  exact hnt (mem_of_getD_ne tbl s _ _ h (by simp))

lemma cumulProbes_lt {sz : Nat} (h : 0 < sz) :
    ∀ (l : List Nat) (slot : Int), ∀ x ∈ cumulProbes sz slot l, x < sz
  | [], _, x, hx => absurd hx (by simp [cumulProbes])
  | i :: rest, slot, x, hx => by
      simp only [cumulProbes, List.mem_cons] at hx
      rcases hx with hx | hx
      · exact hx ▸ idxMod_lt _ h
      · exact cumulProbes_lt h rest _ x hx

/-! ### Lookup success and its preservation across `resize_helper`

`containsFind` is the success-only view of the `contains` scan: `some c`
exactly when the walk reaches a matching element (it never confuses a
count with the 0 returned on a null slot).  On tomb-free tables it
refines `containsScan`. -/

/-- Success-only view of the `contains` scan over a list of probed slots. -/
def containsFind [DecidableEq K] (tbl : List (Slot K)) (key : K) : List Nat → Option Int
  | [] => none
  | s :: rest =>
    match slotAt tbl s with
    | Slot.empty => none
    | Slot.tomb => none
    | Slot.occ e => if e.first = key then some e.second else containsFind tbl key rest

lemma containsScan_of_find [DecidableEq K] [Inhabited K]
    {tbl : List (Slot K)} {key : K} (hnt : NoTombs tbl) :
    ∀ {probes : List Nat} {c : Int},
      containsFind tbl key probes = some c → containsScan tbl key probes = c := by
  intro probes
  induction probes with
  | nil => intro c h; simp [containsFind] at h
  | cons s rest ih =>
      intro c h
      cases hs : slotAt tbl s with
      | empty => simp [containsFind, hs] at h
      | tomb => exact absurd hs (getD_ne_tomb_of_noTombs hnt s)
      | occ e =>
          simp only [containsFind, hs] at h
          simp only [containsScan, hs]
          by_cases he : e.first = key
          · simp [he] at h ⊢; omega
          · simp [he] at h ⊢; exact ih h

lemma rhPlaceScan_eq {tbl : List (Slot K)} {e : Elem K} :
    ∀ {probes : List Nat} {tbl2 : List (Slot K)},
      rhPlaceScan tbl e probes = some tbl2 →
      ∃ s, s ∈ probes ∧ slotAt tbl s = Slot.empty ∧
        tbl2 = tbl.set s (Slot.occ e) := by
  intro probes
  induction probes with
  | nil => intro tbl2 h; simp [rhPlaceScan] at h
  | cons s rest ih =>
      intro tbl2 h
      cases hs : slotAt tbl s with
      | empty =>
          simp only [rhPlaceScan, hs, Option.some_inj] at h
          exact ⟨s, List.mem_cons_self s rest, hs, h.symm⟩
      | tomb =>
          simp only [rhPlaceScan, hs] at h
          obtain ⟨s2, hs2, h2, h3⟩ := ih h
          exact ⟨s2, List.mem_cons_of_mem _ hs2, h2, h3⟩
      | occ e2 =>
          simp only [rhPlaceScan, hs] at h
          obtain ⟨s2, hs2, h2, h3⟩ := ih h
          exact ⟨s2, List.mem_cons_of_mem _ hs2, h2, h3⟩

/-- Placing an element at the first free slot of its probe walk makes the
(identically probed) lookup walk find it, provided no element of the
table already carries its key. -/
lemma rhPlace_containsFind [DecidableEq K] {tbl : List (Slot K)} {e : Elem K}
    (hnt : NoTombs tbl)
    (hfresh : ∀ x ∈ liveElems tbl, x.first ≠ e.first) :
    ∀ {probes : List Nat} {tbl2 : List (Slot K)},
      (∀ s ∈ probes, s < tbl.length) →
      rhPlaceScan tbl e probes = some tbl2 →
      containsFind tbl2 e.first probes = some e.second := by
  intro probes
  induction probes with
  | nil => intro tbl2 _ h; simp [rhPlaceScan] at h
  | cons s rest ih =>
      intro tbl2 hb h
      have hslt : s < tbl.length := hb s (List.mem_cons_self s rest)
      cases hs : slotAt tbl s with
      | empty =>
          simp only [rhPlaceScan, hs, Option.some_inj] at h
          subst h
          simp [containsFind, slotAt_set_self s (Slot.occ e) hslt]
      | tomb => exact absurd hs (getD_ne_tomb_of_noTombs hnt s)
      | occ e2 =>
          simp only [rhPlaceScan, hs] at h
          obtain ⟨s2, _, hs2e, htbl2⟩ := rhPlaceScan_eq h
          have hne : s2 ≠ s := by
            intro hcontra
            rw [hcontra, hs] at hs2e
            cases hs2e
          have hgd : slotAt tbl2 s = Slot.occ e2 := by
            rw [htbl2, slotAt_set_ne s2 s (Slot.occ e) hne, hs]
          have hkey : e2.first ≠ e.first :=
            hfresh e2 (mem_liveElems_of_getD hs)
          simp only [containsFind, hgd, if_neg hkey]
          exact ih (fun x hx => hb x (List.mem_cons_of_mem _ hx)) h

/-- A successful lookup is unaffected by filling a previously free slot:
the walk only ever crossed occupied slots. -/
lemma containsFind_set_empty [DecidableEq K] {tbl : List (Slot K)} {key : K}
    {s2 : Nat} {x : Elem K} (he : slotAt tbl s2 = Slot.empty) :
    ∀ {probes : List Nat} {c : Int},
      containsFind tbl key probes = some c →
      containsFind (tbl.set s2 (Slot.occ x)) key probes = some c := by
  intro probes
  induction probes with
  | nil => intro c h; simp [containsFind] at h
  | cons s rest ih =>
      intro c h
      cases hs : slotAt tbl s with
      | empty => simp [containsFind, hs] at h
      | tomb => simp [containsFind, hs] at h
      | occ e =>
          have hne : s2 ≠ s := by
            intro hcontra
            rw [hcontra, hs] at he
            cases he
          have hgd : slotAt (tbl.set s2 (Slot.occ x)) s = Slot.occ e := by
            rw [slotAt_set_ne s2 s (Slot.occ x) hne, hs]
          simp only [containsFind, hs] at h
          simp only [containsFind, hgd]
          by_cases hk : e.first = key
          · simpa [hk] using h
          · simp only [if_neg hk] at h ⊢; exact ih h

/-- Invariant of the rehash fold: sizes and tomb-freedom are preserved,
the placed elements accumulate exactly once each, and every one of them
stays findable by the (cumulatively probed) lookup walk. -/
lemma rhGo_invariant [DecidableEq K] [HashFn K] {mc sz : Nat} {ha hp : Int}
    (hsz : 0 < sz) :
    ∀ (es : List (Elem K)) (tbl : List (Slot K)) (acc : List (Elem K))
      (tbl2 : List (Slot K)),
      tbl.length = sz → NoTombs tbl → (liveElems tbl).Perm acc →
      (∀ x ∈ acc, containsFind tbl x.first
          (resizeProbes (HashFn.hash_func x.first ha hp) sz mc) = some x.second) →
      ((acc ++ es).map (fun x => x.first)).Nodup →
      rhGo mc sz ha hp tbl es = some tbl2 →
      tbl2.length = sz ∧ NoTombs tbl2 ∧ (liveElems tbl2).Perm (acc ++ es) ∧
        ∀ x ∈ acc ++ es, containsFind tbl2 x.first
          (resizeProbes (HashFn.hash_func x.first ha hp) sz mc) = some x.second := by
  intro es
  induction es with
  | nil =>
      intro tbl acc tbl2 hlen hnt hperm hfind _ h
      simp only [rhGo, Option.some_inj] at h
      subst h
      simpa using ⟨hlen, hnt, hperm, hfind⟩
  | cons e rest ih =>
      intro tbl acc tbl2 hlen hnt hperm hfind hnd h
      rw [rhGo] at h
      cases hplace : rhPlaceScan tbl e
          (resizeProbes (HashFn.hash_func e.first ha hp) sz mc) with
      | none => rw [hplace] at h; cases h
      | some tblmid =>
          rw [hplace] at h
          obtain ⟨s, hsmem, hsE, htblmid⟩ := rhPlaceScan_eq hplace
          have hslt : s < tbl.length := by
            rw [hlen]
            exact cumulProbes_lt hsz _ _ s hsmem
          -- key of `e` is fresh in `tbl`
          have hkeyfresh : ∀ x ∈ liveElems tbl, x.first ≠ e.first := by
            intro x hx
            have hxacc : x ∈ acc := (hperm.mem_iff).1 hx
            intro hcontra
            have hnd2 := hnd
            rw [List.map_append, List.nodup_append] at hnd2
            have hin1 : x.first ∈ acc.map (fun y => y.first) :=
              List.mem_map.mpr ⟨x, hxacc, rfl⟩
            have hin2 : e.first ∈ (e :: rest).map (fun y => y.first) := by simp
            exact hnd2.2.2 hin1 (hcontra ▸ hin2)
          -- bounds on all probes
          have hbounds : ∀ x ∈ resizeProbes (HashFn.hash_func e.first ha hp) sz mc,
              x < tbl.length := by
            rw [hlen]; exact fun x hx => cumulProbes_lt hsz _ _ x hx
          have hfound := rhPlace_containsFind hnt hkeyfresh hbounds hplace
          have hlen2 : tblmid.length = sz := by
            rw [htblmid, List.length_set, hlen]
          have hnt2 : NoTombs tblmid := htblmid ▸ noTombs_set_occ hnt s e
          have hperm2 : (liveElems tblmid).Perm (acc ++ [e]) := by
            rw [htblmid]
            refine (liveElems_set_perm tbl s e hslt hsE).trans ?_
            refine (hperm.cons e).trans ?_
            simpa using (List.perm_append_singleton e acc).symm
          have hfind2 : ∀ x ∈ acc ++ [e], containsFind tblmid x.first
              (resizeProbes (HashFn.hash_func x.first ha hp) sz mc) = some x.second := by
            intro x hx
            rcases List.mem_append.1 hx with hx | hx
            · rw [htblmid]
              exact containsFind_set_empty hsE (hfind x hx)
            · rcases List.mem_singleton.1 hx with rfl
              exact hfound
          have heq : (acc ++ [e]) ++ rest = acc ++ e :: rest := by simp
          have hnd2 : (((acc ++ [e]) ++ rest).map (fun x => x.first)).Nodup := by
            rw [heq]; exact hnd
          have hmain := ih tblmid (acc ++ [e]) tbl2 hlen2 hnt2 hperm2 hfind2 hnd2 h
          rw [heq] at hmain
          exact hmain

lemma liveElems_replicate (n : Nat) :
    liveElems (List.replicate n (Slot.empty : Slot K)) = [] := by
  induction n with
  | zero => rfl
  | succ n ih => simpa [List.replicate_succ, liveElems_cons_empty] using ih

lemma resizeProbes_eq_containsProbes (base : Int) (sz mc : Nat) :
    resizeProbes base sz mc = containsProbes base sz mc := rfl

/-- `resize_helper` written out with the new generation's fields inlined. -/
lemma resize_helper_def [HashFn K] (mc : Nat) (cur : Config K) (newsz : Nat) (d : Int) :
    resize_helper mc cur newsz d =
      (rhGo mc newsz d (2 * (newsz : Int) + 1) (List.replicate newsz Slot.empty)
        (liveElems cur.table)).map
        fun t =>
          { table := t, deleted := [], ha := d, hp := 2 * (newsz : Int) + 1
          , resizing := false } := rfl

/-- Fields of a generation produced by `resize_helper`: the multiplier is
the random draw, the modulus is the deterministic `2 * newsz + 1`, the
table has the new size, and the flags and deletion list start clean. -/
lemma resize_helper_fields [HashFn K] {mc newsz : Nat} {cur : Config K} {d : Int}
    {c : Config K} (h : resize_helper mc cur newsz d = some c) :
    c.ha = d ∧ c.hp = 2 * (newsz : Int) + 1 ∧ c.resizing = false ∧ c.deleted = [] := by
  rw [resize_helper_def] at h
  rcases Option.map_eq_some'.1 h with ⟨t, _, hc⟩
  rw [← hc]
  exact ⟨rfl, rfl, rfl, rfl⟩

/-! ## Claims -/

/-! ### C1 -/

/-- Random-draw oracle used by the concrete scenarios (a legitimate
`uniform_int_distribution<int>(1, sz-1)` outcome for every size ≥ 2). -/
def c1Rd : Nat → Int := fun _ => 1

/-- A freshly constructed table: default size 8, default
`maxcollisions` 8, draw 1 (so `ha = 1`, `hp = 17`). -/
def c1St0 : SHC Int := SHC.init Int 8 8 1

/-- Insert keys 8 and 1 (which hash to slots 0 and 1), then key 25
(base 8, i.e. slot 0 after reduction — a probe chain through 0 and 1). -/
def c1Run : Option (SHC Int × Int) :=
  (insertLoop c1Rd 4 c1St0 8 2).bind fun p1 =>
  (insertLoop c1Rd 4 p1.1 1 2).bind fun p2 =>
  insertLoop c1Rd 4 p2.1 25 2

/-- C1.  The claim "after n completed increment(k) calls, contains(k)
returns exactly n" fails on the code: starting from a table holding keys
8 and 1 but *not* 25, one completed `increment(25)` installs a fresh
element (return value 1) at slot 4 = (8 + 2*2) mod 8, because `insert`
probes `(base + i*i) mod size`; but `contains` advances its probe
cumulatively (`slot = (slot + i*i) mod size`), visits 0, 1, 5, finds
slot 5 null and returns 0 ≠ 1 — contradicting the claim and the
documentation comment above `contains` (src/stripedhash.h:168-172). -/
theorem c1_insert_contains_mismatch :
    ((insertLoop c1Rd 4 c1St0 8 2).bind fun p1 => insertLoop c1Rd 4 p1.1 1 2).map
        (fun p => ((liveElems p.1.cfg.table).map fun e => e.first, containsModel 8 p.1.cfg 25))
      = some ([8, 1], 0) ∧
    c1Run.map (fun p => (p.2, containsModel 8 p.1.cfg 25)) = some (1, 0) := by
  constructor
  · rfl
  · rfl

/-! ### C2 -/

/-- C2 counterexample.  The claim says every operation probes
`(base + i*i) mod size`; at base 8, size 8, the third probe (`i = 2`) of
`insert`/`remove` is slot 4, but `contains` (and the rehash loop) visit
slot 5, because their slot variable is updated in place. -/
theorem c2_probe_sequences_differ :
    insertProbes 8 8 3 = [0, 1, 4] ∧ removeProbes 8 8 3 = [0, 1, 4] ∧
    containsProbes 8 8 3 = [0, 1, 5] ∧ resizeProbes 8 8 3 = [0, 1, 5] ∧
    ([0, 1, 4] : List Nat) ≠ [0, 1, 5] := by
  refine ⟨rfl, rfl, rfl, rfl, by decide⟩

lemma idxMod_of_nonneg_lt {v : Int} {sz : Nat} (h0 : 0 ≤ v) (h1 : v < (2:Int)^64) :
    idxMod v sz = v.toNat % sz := by
  unfold idxMod toSizeT
  rw [Int.emod_eq_of_lt h0 h1]

/-- C2 amended: `insert` and `remove` probe the same sequence
`(base + i*i) mod size`; `contains` and the rehash loop probe the same
cumulative sequence; the two sequences agree on (at least) the first two
probes whenever the base is an actual non-negative `int` value and the
size an actual vector size. -/
theorem c2_probe_sequences_amended (base : Int) (sz mc : Nat)
    (h0 : 0 ≤ base) (h1 : base + 1 < (2:Int)^64) (hsz : 0 < sz)
    (hsz2 : sz < 2^64) :
    removeProbes base sz mc = insertProbes base sz mc ∧
    resizeProbes base sz mc = containsProbes base sz mc ∧
    (containsProbes base sz mc).take 2 = (insertProbes base sz mc).take 2 := by
  refine ⟨rfl, rfl, ?_⟩
  match mc with
  | 0 => rfl
  | 1 => rfl
  | m + 2 =>
    have hr : List.range (m + 2) = 0 :: 1 :: (List.range m).map (fun i => i + 2) := by
      rw [List.range_succ_eq_map, List.range_succ_eq_map]
      simp only [List.map_cons, List.map_map]
      refine congrArg _ (congrArg _ (congrArg₂ _ ?_ rfl))
      funext i
      simp [Function.comp]
    have hb64 : base < (2:Int)^64 := by omega
    have hs0 : idxMod (base + (0:Nat) * (0:Nat)) sz = base.toNat % sz := by
      have : base + ((0:Nat):Int) * ((0:Nat):Int) = base := by push_cast; ring
      rw [this, idxMod_of_nonneg_lt h0 hb64]
    have hs0lt : base.toNat % sz < sz := Nat.mod_lt _ hsz
    have hcast : ((base.toNat % sz : Nat) : Int) + (1:Nat) * (1:Nat) =
        ((base.toNat % sz + 1 : Nat) : Int) := by push_cast; ring
    have hlt2 : ((base.toNat % sz + 1 : Nat) : Int) < (2:Int)^64 := by
      have : base.toNat % sz + 1 ≤ sz := hs0lt
      have h2 : ((base.toNat % sz + 1 : Nat) : Int) ≤ (sz : Int) := by exact_mod_cast this
      have h3 : (sz : Int) < (2:Int)^64 := by exact_mod_cast hsz2
      omega
    have hsecond : idxMod (((base.toNat % sz : Nat) : Int) + (1:Nat) * (1:Nat)) sz =
        (base.toNat + 1) % sz := by
      rw [hcast, idxMod_of_nonneg_lt (by positivity) hlt2]
      rw [Int.toNat_natCast]
      exact Nat.mod_add_mod _ _ _
    have hinsert1 : idxMod (base + (1:Nat) * (1:Nat)) sz = (base.toNat + 1) % sz := by
      have he : base + ((1:Nat):Int) * ((1:Nat):Int) = base + 1 := by push_cast; ring
      rw [he, idxMod_of_nonneg_lt (by omega) h1]
      have : (base + 1).toNat = base.toNat + 1 := by omega
      rw [this]
    simp only [containsProbes, insertProbes, hr, cumulProbes, List.map_cons, List.take]
    rw [hs0, hsecond, hinsert1]

/-! ### C3 -/

/-- C3 amended, the part that holds: a successful `resize_helper`
transfers every live element exactly once (the new generation's live
elements are a permutation of the old ones — nothing dropped, nothing
duplicated), and every transferred key remains retrievable by `contains`
with its count unchanged, provided the old generation's live keys were
distinct. -/
theorem c3_resize_preserves_amended [DecidableEq K] [Inhabited K] [HashFn K]
    (mc newsz : Nat) (cur : Config K) (d : Int) (newcfg : Config K)
    (hsz : 0 < newsz)
    (hnd : ((liveElems cur.table).map fun x => x.first).Nodup)
    (h : resize_helper mc cur newsz d = some newcfg) :
    newcfg.table.length = newsz ∧
    (liveElems newcfg.table).Perm (liveElems cur.table) ∧
    ∀ x ∈ liveElems cur.table, containsModel mc newcfg x.first = x.second := by
  rw [resize_helper_def] at h
  rcases Option.map_eq_some'.1 h with ⟨t, hgo, hc⟩
  obtain ⟨hlen, hnt, hperm, hfind⟩ :=
    rhGo_invariant (K := K) hsz (liveElems cur.table)
      (List.replicate newsz Slot.empty) [] t
      (by simp) (noTombs_replicate newsz)
      (by simp [liveElems_replicate])
      (by intro x hx; cases hx)
      (by simpa using hnd) hgo
  have htbl : newcfg.table = t := by rw [← hc]
  have hha : newcfg.ha = d := by rw [← hc]
  have hhp : newcfg.hp = 2 * (newsz : Int) + 1 := by rw [← hc]
  refine ⟨by rw [htbl]; exact hlen, ?_, ?_⟩
  · rw [htbl]
    simpa using hperm
  · intro x hx
    have hfx := hfind x (by simpa using hx)
    simp only [containsModel]
    rw [htbl, hha, hhp, hlen, ← resizeProbes_eq_containsProbes]
    exact containsScan_of_find hnt hfx

/-- An old generation whose three live keys 8, 1 and 25 rehash (with the
new parameters `ha = 1`, `hp = 17`, size 8) to bases 8, 1 and 8. -/
def c3cexCur : Config Int :=
  { table := [Slot.occ ⟨8, 1⟩, Slot.occ ⟨1, 1⟩, Slot.occ ⟨25, 1⟩]
  , deleted := [], ha := 1, hp := 7, resizing := false }

/-- The generation `resize_helper` builds from `c3cexCur`: key 25 lands
at slot 5 (cumulative probes 0, 1, 5). -/
def c3cexNew : Config Int :=
  { table := [Slot.occ ⟨8, 1⟩, Slot.occ ⟨1, 1⟩, Slot.empty, Slot.empty,
              Slot.empty, Slot.occ ⟨25, 1⟩, Slot.empty, Slot.empty]
  , deleted := [], ha := 1, hp := 17, resizing := false }

/-- The table after a further `increment(25)` on `c3cexNew`: a second
element with key 25 appears at slot 4 = (8 + 2*2) mod 8. -/
def c3cexTbl2 : List (Slot Int) :=
  [Slot.occ ⟨8, 1⟩, Slot.occ ⟨1, 1⟩, Slot.empty, Slot.empty,
   Slot.occ ⟨25, 1⟩, Slot.occ ⟨25, 1⟩, Slot.empty, Slot.empty]

/-- C3 counterexample.  After the resize of `c3cexCur`, key 25 is live
with count 1 and `contains` finds it — but a further `increment(25)`
does *not* find the same element: its probe pass installs a second,
fresh element for key 25 (returning 1, a "newly created" answer),
duplicating the key, contrary to the claim. -/
theorem c3_increment_after_resize_duplicates :
    resize_helper 8 c3cexCur 8 1 = some c3cexNew ∧
    containsModel 8 c3cexNew 25 = 1 ∧
    insertScan c3cexNew.resizing c3cexNew.table 25
        (insertProbes (HashFn.hash_func (25 : Int) c3cexNew.ha c3cexNew.hp)
          c3cexNew.table.length 8)
      = InsRes.done c3cexTbl2 1 ∧
    (liveElems c3cexTbl2).count (⟨25, 1⟩ : Elem Int) = 2 := by decide

/-- Witness input for `c3_resize_preserves_amended`. -/
def c3wCur : Config Int :=
  { table := [Slot.occ ⟨8, 1⟩], deleted := [], ha := 1, hp := 3, resizing := false }

/-- What `resize_helper 8 c3wCur 8 1` produces. -/
def c3wNew : Config Int :=
  { table := [Slot.occ ⟨8, 1⟩, Slot.empty, Slot.empty, Slot.empty,
              Slot.empty, Slot.empty, Slot.empty, Slot.empty]
  , deleted := [], ha := 1, hp := 17, resizing := false }

theorem c3_resize_preserves_witness :
    (liveElems c3wNew.table).Perm (liveElems c3wCur.table) ∧
    containsModel 8 c3wNew 8 = 1 :=
  have h := c3_resize_preserves_amended 8 8 c3wCur 1 c3wNew
    (by decide) (by decide) (by decide)
  ⟨h.2.1, h.2.2 ⟨8, 1⟩ (by decide)⟩

/-! ### C5 -/

/-- When a full probe pass of `remove` finds neither the key nor a free
slot, the `while(true)` loop re-reads the unchanged state and probes
again: `remove` never returns, whatever the fuel. -/
lemma removeLoop_none_of_full [DecidableEq K] [HashFn K] {st : SHC K} {key : K}
    (h : removeScan st.cfg.resizing st.cfg.table st.cfg.deleted key
        (removeProbes (HashFn.hash_func key st.cfg.ha st.cfg.hp)
          st.cfg.table.length st.maxcollisions) = RemRes.full) :
    ∀ fuel, removeLoop st key fuel = none := by
  intro fuel
  induction fuel with
  | zero => rfl
  | succ n ih =>
      rw [removeLoop]
      simp only [h]
      exact ih

/-- A default-parameter table (size 8, `maxcollisions` 8, `ha = 1`,
`hp = 17`) holding keys 8, 1, 4 at slots 0, 1, 4 — exactly the slots the
probe pattern of key 25 (base 8) can reach: 0, 1, 4, 1, 0, 1, 4, 1. -/
def c5St : SHC Int :=
  ⟨{ table := [Slot.occ ⟨8, 1⟩, Slot.occ ⟨1, 1⟩, Slot.empty, Slot.empty,
               Slot.occ ⟨4, 1⟩, Slot.empty, Slot.empty, Slot.empty]
   , deleted := [], ha := 1, hp := 17, resizing := false }, 8⟩

/-- C5.  The claim says `remove(key)` always returns, with 0 when the key
is never found within the probe bound.  On `c5St`, `remove(25)` finds all
its probed slots occupied by other keys, falls out of the probe loop, and
the enclosing `while(true)` retries forever with unchanged state: the
call never returns.  (The `return 0;` after the loop in the source is
unreachable, showing the intended behaviour the claim describes.) -/
theorem c5_remove_diverges :
    removeScan c5St.cfg.resizing c5St.cfg.table c5St.cfg.deleted 25
        (removeProbes (HashFn.hash_func (25 : Int) c5St.cfg.ha c5St.cfg.hp)
          c5St.cfg.table.length c5St.maxcollisions) = RemRes.full ∧
    containsModel 8 c5St.cfg 25 = 0 ∧
    ∀ fuel : Nat, removeLoop c5St 25 fuel = none :=
  ⟨by decide, by decide, removeLoop_none_of_full (by decide)⟩

theorem c5_remove_diverges_witness : removeLoop c5St 25 3 = none :=
  c5_remove_diverges.2.2 3

/-! ### C7 -/

/-- C7 counterexample.  The claim says both hash parameters (multiplier
and modulus) are drawn randomly per generation.  Two different random
draws (1 and 7) for the same capacity produce the *same* modulus 17:
`hp = 2 * sz + 1` is a deterministic function of the capacity and never
depends on the random engine. -/
theorem c7_modulus_not_random :
    (mkConfig Int 8 1).hp = 17 ∧ (mkConfig Int 8 7).hp = 17 ∧
    (mkConfig Int 8 1).ha = 1 ∧ (mkConfig Int 8 7).ha = 7 ∧
    ((1 : Int) ≠ 7) := by decide

/-- Old generation with no live elements, for the C7 witness. -/
def c7Cur : Config Int :=
  { table := [], deleted := [], ha := 1, hp := 3, resizing := false }

/-- C7 amended: per generation (both at construction and at every
successful resize) only the *multiplier* `ha` carries the random draw;
the modulus `hp` is deterministically `2 * size + 1`. -/
theorem c7_hash_params_amended (K : Type) [HashFn K]
    (sz : Nat) (d : Int) (mc newsz : Nat) (cur c : Config K)
    (h : resize_helper mc cur newsz d = some c) :
    (mkConfig K sz d).ha = d ∧ (mkConfig K sz d).hp = 2 * (sz : Int) + 1 ∧
    c.ha = d ∧ c.hp = 2 * (newsz : Int) + 1 :=
  ⟨rfl, rfl, (resize_helper_fields h).1, (resize_helper_fields h).2.1⟩

theorem c7_hash_params_amended_witness :
    (mkConfig Int 8 2).ha = 2 ∧ (mkConfig Int 8 2).hp = 17 ∧
    (mkConfig Int 4 2).ha = 2 ∧ (mkConfig Int 4 2).hp = 9 :=
  c7_hash_params_amended Int 8 2 8 4 c7Cur (mkConfig Int 4 2) (by decide)

/-! ### C10 -/

/-- C10 counterexample.  The claim says `hash_func` returns a
non-negative value for every string, in particular for bytes above 127.
The one-character string `"\x80"` (char value -128 as a signed char)
hashes to -9 with `ha = 1`, `hp = 17`: C++ `%` truncates toward zero, so
the result of `hash_func` is negative. -/
theorem c10_hash_negative_high_byte :
    hash_func_string [-128] 1 17 = -9 ∧ hash_func_string [-128] 1 17 < 0 ∧
    HashFn.hash_func ([-128] : List Int) 1 17 < 0 := by decide

/-- C10 amended: even though the hash value can be negative, every slot
index any operation computes is reduced `% table.size()` after the
implicit `int` → `size_t` conversion, so it always lies within the table
bounds and `table.at(slot)` cannot throw. -/
theorem c10_slots_in_bounds_amended (v : Int) (sz mc : Nat) (hsz : 0 < sz) :
    idxMod v sz < sz ∧
    (∀ s ∈ insertProbes v sz mc, s < sz) ∧
    (∀ s ∈ removeProbes v sz mc, s < sz) ∧
    (∀ s ∈ containsProbes v sz mc, s < sz) := by
  refine ⟨idxMod_lt v hsz, ?_, ?_, ?_⟩
  · intro s hs
    rcases List.mem_map.1 hs with ⟨i, _, rfl⟩
    exact idxMod_lt _ hsz
  · intro s hs
    rcases List.mem_map.1 hs with ⟨i, _, rfl⟩
    exact idxMod_lt _ hsz
  · intro s hs
    exact cumulProbes_lt hsz _ _ s hs

theorem c10_slots_in_bounds_witness :
    0 < 8 ∧ idxMod (hash_func_string [-128] 1 17) 8 < 8 :=
  ⟨by decide,
   (c10_slots_in_bounds_amended (hash_func_string [-128] 1 17) 8 8 (by decide)).1⟩

/-! ### C4 and C8: `extract_top` -/

lemma foldl_pick_mem [LinearOrder K] :
    ∀ (xs : List (Elem K)) (x : Elem K),
      xs.foldl (fun m e => if worse e m then e else m) x ∈ x :: xs
  | [], x => List.mem_cons_self x []
  | y :: ys, x => by
      simp only [List.foldl_cons]
      by_cases hw : worse y x = true
      · rw [if_pos hw]
        rcases List.mem_cons.1 (foldl_pick_mem ys y) with h | h
        · rw [h]
          exact List.mem_cons_of_mem _ (List.mem_cons_self y ys)
        · exact List.mem_cons_of_mem _ (List.mem_cons_of_mem _ h)
      · rw [if_neg hw]
        rcases List.mem_cons.1 (foldl_pick_mem ys x) with h | h
        · rw [h]
          exact List.mem_cons_self x _
        · exact List.mem_cons_of_mem _ (List.mem_cons_of_mem _ h)

lemma rootOf_mem [LinearOrder K] {h : List (Elem K)} {r : Elem K}
    (hr : rootOf h = some r) : r ∈ h := by
  match h with
  | [] => cases hr
  | x :: xs =>
      simp only [rootOf, Option.some_inj] at hr
      rw [← hr]
      exact foldl_pick_mem xs x

lemma rootOf_ne_none [LinearOrder K] {h : List (Elem K)} (hne : h ≠ []) :
    ∃ r, rootOf h = some r := by
  match h with
  | [] => exact absurd rfl hne
  | x :: xs => exact ⟨_, rfl⟩

/-- One scan step on a nonempty heap succeeds, keeps the heap size, and
introduces no entry other than the scanned element. -/
lemma extractStep_spec [LinearOrder K] {h : List (Elem K)} (e : Elem K)
    (hne : h ≠ []) :
    ∃ h2, extractStep h e = some h2 ∧ h2.length = h.length ∧
      ∀ x ∈ h2, x ∈ h ∨ x = e := by
  obtain ⟨r, hr⟩ := rootOf_ne_none hne
  have hrm : r ∈ h := rootOf_mem hr
  simp only [extractStep, hr]
  split
  · exact ⟨h, rfl, rfl, fun x hx => Or.inl hx⟩
  · refine ⟨(h.erase r) ++ [e], rfl, ?_, ?_⟩
    · rw [List.length_append, List.length_erase_of_mem hrm]
      have h1 : 0 < h.length := List.length_pos.2 hne
      simp only [List.length_singleton]
      omega
    · intro x hx
      rcases List.mem_append.1 hx with hx | hx
      · exact Or.inl (List.mem_of_mem_erase hx)
      · exact Or.inr (List.mem_singleton.1 hx)

/-- The slot scan of `extract_top` on a nonempty heap succeeds, keeps the
heap size, and only ever holds initial entries and live elements. -/
lemma extractGo_spec [LinearOrder K] :
    ∀ (slots : List (Slot K)) (h : List (Elem K)), h ≠ [] →
      ∃ h2, extractGo h slots = some h2 ∧ h2.length = h.length ∧
        ∀ x ∈ h2, x ∈ h ∨ x ∈ liveElems slots
  | [], h, _ => ⟨h, rfl, rfl, fun x hx => Or.inl hx⟩
  | Slot.empty :: rest, h, hne => by
      obtain ⟨h2, hgo, hlen, hmem⟩ := extractGo_spec rest h hne
      exact ⟨h2, hgo, hlen, by simpa [liveElems_cons_empty] using hmem⟩
  | Slot.tomb :: rest, h, hne => by
      obtain ⟨h2, hgo, hlen, hmem⟩ := extractGo_spec rest h hne
      exact ⟨h2, hgo, hlen, by simpa [liveElems_cons_tomb] using hmem⟩
  | Slot.occ e :: rest, h, hne => by
      obtain ⟨hmid, hstep, hlen1, hmem1⟩ := extractStep_spec e hne
      have hmidne : hmid ≠ [] := by
        intro hcontra
        rw [hcontra] at hlen1
        exact hne (List.length_eq_zero.1 hlen1.symm)
      obtain ⟨h2, hgo, hlen2, hmem2⟩ := extractGo_spec rest hmid hmidne
      refine ⟨h2, ?_, hlen2.trans hlen1, ?_⟩
      · simp only [extractGo, hstep]
        exact hgo
      · intro x hx
        rcases hmem2 x hx with hx2 | hx2
        · rcases hmem1 x hx2 with hx3 | hx3
          · exact Or.inl hx3
          · refine Or.inr ?_
            rw [liveElems_cons_occ]
            exact hx3 ▸ List.mem_cons_self e _
        · refine Or.inr ?_
          rw [liveElems_cons_occ]
          exact List.mem_cons_of_mem _ hx2

/-- With no live element the scan never touches the heap. -/
lemma extractGo_of_noLive [LinearOrder K] :
    ∀ (slots : List (Slot K)) (h : List (Elem K)), liveElems slots = [] →
      extractGo h slots = some h
  | [], _, _ => rfl
  | Slot.empty :: rest, h, hl =>
      extractGo_of_noLive rest h (by rwa [liveElems_cons_empty] at hl)
  | Slot.tomb :: rest, h, hl =>
      extractGo_of_noLive rest h (by rwa [liveElems_cons_tomb] at hl)
  | Slot.occ e :: rest, h, hl => by
      rw [liveElems_cons_occ] at hl
      cases hl

/-- With an empty heap (`count = 0`) and at least one live element, the
scan reads `heap->front()` of an empty vector: undefined behaviour. -/
lemma extractGo_nil_of_live [LinearOrder K] :
    ∀ (slots : List (Slot K)), liveElems slots ≠ [] →
      extractGo ([] : List (Elem K)) slots = none
  | [], hl => absurd rfl hl
  | Slot.empty :: rest, hl =>
      extractGo_nil_of_live rest (by rwa [liveElems_cons_empty] at hl)
  | Slot.tomb :: rest, hl =>
      extractGo_nil_of_live rest (by rwa [liveElems_cons_tomb] at hl)
  | Slot.occ e :: rest, _ => rfl

lemma sortLE_trans [LinearOrder K] (a b c : Elem K) :
    sortLE a b = true → sortLE b c = true → sortLE a c = true := by
  simp only [sortLE, Bool.or_eq_true, Bool.and_eq_true, decide_eq_true_eq,
    beq_iff_eq]
  intro h1 h2
  rcases h1 with h1 | ⟨h1e, h1k⟩ <;> rcases h2 with h2 | ⟨h2e, h2k⟩
  · exact Or.inl (h2.trans h1)
  · exact Or.inl (by omega)
  · exact Or.inl (by omega)
  · exact Or.inr ⟨by omega, h1k.trans h2k⟩

lemma sortLE_total [LinearOrder K] (a b : Elem K) :
    (sortLE a b || sortLE b a) = true := by
  simp only [sortLE, Bool.or_eq_true, Bool.and_eq_true, decide_eq_true_eq,
    beq_iff_eq]
  rcases lt_trichotomy a.second b.second with h | h | h
  · exact Or.inr (Or.inl h)
  · rcases le_total a.first b.first with hk | hk
    · exact Or.inl (Or.inr ⟨h, hk⟩)
    · exact Or.inr (Or.inr ⟨h.symm, hk⟩)
  · exact Or.inl (Or.inl h)

/-- C4 counterexample.  The claim says an empty table yields an empty
sequence.  On a freshly built (empty) table, `extract_top 1` returns the
one-entry sequence `[(default, 0)]` — the sentinel padding — not the
empty sequence. -/
theorem c4_extract_top_empty_not_empty :
    extract_top 1 (mkConfig Int 8 1) = some [⟨0, 0⟩] ∧
    some [(⟨0, 0⟩ : Elem Int)] ≠ some ([] : List (Elem Int)) := by
  constructor
  · have hgo : extractGo (List.replicate 1 (sentinelElem Int))
        (mkConfig Int 8 1).table = some [⟨0, 0⟩] := by decide
    unfold extract_top
    rw [hgo]
    simp
  · decide

/-- C4 amended: for `k > 0`, `extract_top k` always returns *exactly* `k`
entries — padded with the default sentinel `(default, 0)` when fewer live
elements exist — sorted by count descending with ties by key ascending;
`extract_top 0` returns the empty sequence only on a table without live
elements, and is undefined behaviour (an empty-vector `front()` read)
otherwise. -/
theorem c4_extract_top_amended [LinearOrder K] [Inhabited K]
    (k : Nat) (cfg : Config K) :
    (0 < k → ∃ res, extract_top k cfg = some res ∧ res.length = k ∧
      res.Pairwise (fun a b => sortLE a b = true) ∧
      ∀ x ∈ res, x ∈ liveElems cfg.table ∨ x = sentinelElem K) ∧
    (liveElems cfg.table = [] → extract_top 0 cfg = some []) ∧
    (liveElems cfg.table ≠ [] → extract_top 0 cfg = none) := by
  refine ⟨?_, ?_, ?_⟩
  · intro hk
    have hne : List.replicate k (sentinelElem K) ≠ [] := by
      intro hcontra
      have := congrArg List.length hcontra
      simp at this
      omega
    obtain ⟨h2, hgo, hlen, hmem⟩ := extractGo_spec cfg.table _ hne
    refine ⟨h2.mergeSort sortLE, ?_, ?_, ?_, ?_⟩
    · unfold extract_top
      rw [hgo]
      rfl
    · rw [List.length_mergeSort, hlen, List.length_replicate]
    · exact List.sorted_mergeSort sortLE_trans sortLE_total h2
    · intro x hx
      have hx2 : x ∈ h2 := List.mem_mergeSort.1 hx
      rcases hmem x hx2 with hx3 | hx3
      · exact Or.inr (List.eq_of_mem_replicate hx3)
      · exact Or.inl hx3
  · intro hl
    unfold extract_top
    rw [List.replicate_zero, extractGo_of_noLive cfg.table [] hl]
    simp
  · intro hl
    unfold extract_top
    rw [List.replicate_zero, extractGo_nil_of_live cfg.table hl]
    rfl

theorem c4_extract_top_amended_witness :
    ∃ res, extract_top 1 (mkConfig Int 8 1) = some res ∧ res.length = 1 ∧
      res.Pairwise (fun a b => sortLE a b = true) ∧
      ∀ x ∈ res, x ∈ liveElems (mkConfig Int 8 1).table ∨ x = sentinelElem Int :=
  (c4_extract_top_amended 1 (mkConfig Int 8 1)).1 (by decide)

/-- A small table with two live elements, for the C8 witness. -/
def c8Cfg : Config Int :=
  { table := [Slot.occ ⟨5, 2⟩, Slot.tomb, Slot.occ ⟨3, 1⟩, Slot.empty]
  , deleted := [], ha := 1, hp := 9, resizing := false }

/-- C8: for `k > 0`, `extract_top k` returns exactly `k` pairs however
many live keys exist; every returned pair is either a live element or the
default-constructed sentinel `(default, 0)`; and the printer's
`if (!it.second) continue;` filter keeps only genuine live elements (all
live counts being nonzero). -/
theorem c8_extract_top_padding [LinearOrder K] [Inhabited K]
    (k : Nat) (cfg : Config K) (hk : 0 < k) :
    ∃ res, extract_top k cfg = some res ∧ res.length = k ∧
      (∀ x ∈ res, x ∈ liveElems cfg.table ∨ x = sentinelElem K) ∧
      ∀ x ∈ printedEntries res, x ∈ liveElems cfg.table := by
  have hne : List.replicate k (sentinelElem K) ≠ [] := by
    intro hcontra
    have := congrArg List.length hcontra
    simp at this
    omega
  obtain ⟨h2, hgo, hlen, hmem⟩ := extractGo_spec cfg.table _ hne
  refine ⟨h2.mergeSort sortLE, ?_, ?_, ?_, ?_⟩
  · unfold extract_top
    rw [hgo]
    rfl
  · rw [List.length_mergeSort, hlen, List.length_replicate]
  · intro x hx
    have hx2 : x ∈ h2 := List.mem_mergeSort.1 hx
    rcases hmem x hx2 with hx3 | hx3
    · exact Or.inr (List.eq_of_mem_replicate hx3)
    · exact Or.inl hx3
  · intro x hx
    have hx1 : x ∈ h2.mergeSort sortLE ∧ ¬(x.second == 0) = true := by
      have := List.mem_filter.1 hx
      simpa [printedEntries] using this
    have hx2 : x ∈ h2 := List.mem_mergeSort.1 hx1.1
    rcases hmem x hx2 with hx3 | hx3
    · exfalso
      have := List.eq_of_mem_replicate hx3
      rw [this] at hx1
      simp [sentinelElem] at hx1
    · exact hx3

theorem c8_extract_top_padding_witness :
    0 < 3 ∧
    ∃ res, extract_top 3 c8Cfg = some res ∧ res.length = 3 ∧
      (∀ x ∈ res, x ∈ liveElems c8Cfg.table ∨ x = sentinelElem Int) ∧
      ∀ x ∈ printedEntries res, x ∈ liveElems c8Cfg.table :=
  ⟨by decide, c8_extract_top_padding 3 c8Cfg (by decide)⟩

/-- C2 witness. -/
theorem c2_probe_sequences_amended_witness :
    (0 : Int) ≤ 8 ∧ (8 : Int) + 1 < (2 : Int)^64 ∧ 0 < 8 ∧ 8 < 2^64 ∧
    (containsProbes 8 8 8).take 2 = (insertProbes 8 8 8).take 2 :=
  ⟨by decide, by decide, by decide, by decide,
   (c2_probe_sequences_amended 8 8 8 (by decide) (by decide) (by decide)
     (by decide)).2.2⟩

end SSFI

/-! ### C6: the queue refines a functional list -/

namespace kjp

variable {T : Type}

lemma mkQueue_WF (T : Type) [Inhabited T] : QWF (mkQueue T) := by
  constructor
  · simp [mkQueue]
  · simp [mkQueue]

lemma enq_WF {q : unboundedQueue T} (h : QWF q) (x : T) : QWF (enq q x) := by
  obtain ⟨h1, h2⟩ := h
  constructor
  · simp [enq]
  · simp only [enq, List.length_append, List.length_singleton]
    push_cast
    omega

lemma enq_abs {q : unboundedQueue T} (h : QWF q) (x : T) :
    queueAbs (enq q x) = queueAbs q ++ [x] := by
  obtain ⟨h1, _⟩ := h
  cases hq : q.chain with
  | nil => exact absurd hq h1
  | cons c t => simp [queueAbs, enq, hq]

lemma deq_cons {q : unboundedQueue T} (h : QWF q) {x : T} {r : List T}
    (ha : queueAbs q = x :: r) :
    deq q = some (x, ⟨x :: r, q.size - 1⟩) ∧
    queueAbs (⟨x :: r, q.size - 1⟩ : unboundedQueue T) = r ∧
    QWF (⟨x :: r, q.size - 1⟩ : unboundedQueue T) := by
  obtain ⟨h1, h2⟩ := h
  cases hq : q.chain with
  | nil => exact absurd hq h1
  | cons c t =>
      have ht : t = x :: r := by simpa [queueAbs, hq] using ha
      have hlen : q.size = (r.length : Int) + 1 := by
        rw [h2, hq, ht]
        simp only [List.length_cons]
        push_cast
        omega
      have hs : ¬(q.size = 0) := by
        rw [hlen]
        omega
      refine ⟨?_, by simp [queueAbs], ?_⟩
      · simp only [deq, if_neg hs, hq, ht]
      · refine ⟨by simp, ?_⟩
        simp only [List.length_cons]
        rw [hlen]
        push_cast
        omega

lemma deqN_spec : ∀ (n : Nat) (q : unboundedQueue T), QWF q →
    n ≤ (queueAbs q).length → deqN q n = (queueAbs q).take n
  | 0, _, _, _ => by simp [deqN]
  | n + 1, q, hwf, hn => by
      cases ha : queueAbs q with
      | nil => rw [ha] at hn; simp at hn
      | cons x r =>
          obtain ⟨hdeq, habs2, hwf2⟩ := deq_cons hwf ha
          have hrec := deqN_spec n _ hwf2 (by
            rw [habs2]
            rw [ha] at hn
            simpa using hn)
          rw [habs2] at hrec
          simp only [deqN, hdeq, ha, List.take_succ_cons]
          rw [hrec]

lemma enqAll_spec : ∀ (xs : List T) (q : unboundedQueue T), QWF q →
    queueAbs (enqAll q xs) = queueAbs q ++ xs ∧ QWF (enqAll q xs)
  | [], q, h => by simp [enqAll, h]
  | x :: rest, q, h => by
      have h1 := enq_abs h x
      have h2 := enq_WF h x
      obtain ⟨ha, hw⟩ := enqAll_spec rest (enq q x) h2
      constructor
      · simp only [enqAll, List.foldl_cons] at ha ⊢
        rw [ha, h1]
        simp
      · simpa only [enqAll, List.foldl_cons] using hw

lemma foldl_specEnq : ∀ (xs l : List T), List.foldl specEnq l xs = l ++ xs
  | [], l => by simp
  | x :: rest, l => by
      simp only [List.foldl_cons]
      rw [foldl_specEnq rest (specEnq l x)]
      simp [specEnq]

lemma specDeqN_take : ∀ (n : Nat) (l : List T), n ≤ l.length →
    specDeqN l n = l.take n
  | 0, _, _ => by simp [specDeqN]
  | n + 1, [], h => by simp at h
  | n + 1, x :: r, h => by
      simp only [specDeqN, specDeq, List.take_succ_cons]
      rw [specDeqN_take n r (by simpa using h)]

/-- C6.  Single-producer FIFO by refinement: enqueuing `xs` into a fresh
queue yields the abstract list `xs` (the same list the spec-level
append-at-tail queue builds), and the first `n ≤ |xs|` dequeues return
exactly `xs.take n`, in order — matching the spec-level head removals. -/
theorem c6_queue_fifo_refinement (T : Type) [Inhabited T] (xs : List T) (n : Nat)
    (h : n ≤ xs.length) :
    queueAbs (enqAll (mkQueue T) xs) = List.foldl specEnq [] xs ∧
    deqN (enqAll (mkQueue T) xs) n = specDeqN (List.foldl specEnq [] xs) n ∧
    deqN (enqAll (mkQueue T) xs) n = xs.take n := by
  obtain ⟨ha, hw⟩ := enqAll_spec xs (mkQueue T) (mkQueue_WF T)
  have habs : queueAbs (enqAll (mkQueue T) xs) = xs := by
    rw [ha]
    simp [mkQueue, queueAbs]
  have hspec : List.foldl specEnq [] xs = xs := by
    simpa using foldl_specEnq xs []
  have hd : deqN (enqAll (mkQueue T) xs) n = xs.take n := by
    have hds := deqN_spec n _ hw (by rw [habs]; exact h)
    rwa [habs] at hds
  refine ⟨by rw [habs, hspec], ?_, hd⟩
  rw [hspec, hd, specDeqN_take n xs h]

theorem c6_queue_fifo_refinement_witness :
    2 ≤ ([3, 1, 2] : List Int).length ∧
    deqN (enqAll (mkQueue Int) [3, 1, 2]) 2 = [3, 1] :=
  ⟨by decide, by
    have hfifo := (c6_queue_fifo_refinement Int [3, 1, 2] 2 (by decide)).2.2
    simpa using hfifo⟩

end kjp

/-! ### C9: the `resizing` flag is never set -/

namespace SSFI

/-- Table states reachable through the public interface: construction,
then any number of completed `insert` (= `increment`) and `remove` calls;
`contains` and `extract_top` do not modify the configuration. -/
inductive Reachable [DecidableEq K] [HashFn K] : SHC K → Prop
  | init (sz mc : Nat) (d : Int) : Reachable (SHC.init K sz mc d)
  | ins {st st' : SHC K} {r : Int} (key : K) (rd : Nat → Int) (rsFuel fuel : Nat) :
      Reachable st → insertLoop rd rsFuel st key fuel = some (st', r) →
      Reachable st'
  | rem {st st' : SHC K} {r : Int} (key : K) (fuel : Nat) :
      Reachable st → removeLoop st key fuel = some (st', r) → Reachable st'

lemma resizeLoop_resizing [HashFn K] {mc : Nat} {cur c : Config K}
    {rd : Nat → Int} :
    ∀ {start fuel : Nat}, resizeLoop mc cur rd start fuel = some c →
      c.resizing = false := by
  intro start fuel
  induction fuel generalizing start with
  | zero => intro h; cases h
  | succ n ih =>
      intro h
      rw [resizeLoop] at h
      cases hr : resize_helper mc cur (start * 2) (rd (start * 2)) with
      | some c2 =>
          rw [hr] at h
          cases h
          exact (resize_helper_fields hr).2.2.1
      | none =>
          rw [hr] at h
          exact ih h

lemma resize_resizing [HashFn K] {mc fuel : Nat} {cur c : Config K}
    {rd : Nat → Int} (h0 : cur.resizing = false)
    (h : resize mc cur rd fuel = some c) : c.resizing = false := by
  rw [resize, h0] at h
  simp only [Bool.false_eq_true, if_false] at h
  exact resizeLoop_resizing h

lemma insertLoop_resizing [DecidableEq K] [HashFn K] {rd : Nat → Int}
    {rsFuel : Nat} {key : K} {r : Int} :
    ∀ {fuel : Nat} {st st' : SHC K}, st.cfg.resizing = false →
      insertLoop rd rsFuel st key fuel = some (st', r) →
      st'.cfg.resizing = false := by
  intro fuel
  induction fuel with
  | zero => intro st st' _ h; cases h
  | succ n ih =>
      intro st st' h0 h
      simp only [insertLoop] at h
      cases hscan : insertScan st.cfg.resizing st.cfg.table key
          (insertProbes (HashFn.hash_func key st.cfg.ha st.cfg.hp)
            st.cfg.table.length st.maxcollisions) with
      | done tbl ret =>
          rw [hscan] at h
          simp only [Option.some_inj, Prod.mk.injEq] at h
          rw [← h.1]
          exact h0
      | retry =>
          rw [hscan] at h
          exact ih h0 h
      | full =>
          rw [hscan] at h
          cases hres : resize st.maxcollisions st.cfg rd rsFuel with
          | some c =>
              rw [hres] at h
              exact ih (resize_resizing h0 hres) h
          | none =>
              rw [hres] at h
              cases h

lemma removeLoop_resizing [DecidableEq K] [HashFn K] {key : K} {r : Int} :
    ∀ {fuel : Nat} {st st' : SHC K}, st.cfg.resizing = false →
      removeLoop st key fuel = some (st', r) → st'.cfg.resizing = false := by
  intro fuel
  induction fuel with
  | zero => intro st st' _ h; cases h
  | succ n ih =>
      intro st st' h0 h
      simp only [removeLoop] at h
      cases hscan : removeScan st.cfg.resizing st.cfg.table st.cfg.deleted key
          (removeProbes (HashFn.hash_func key st.cfg.ha st.cfg.hp)
            st.cfg.table.length st.maxcollisions) with
      | done tbl del ret =>
          rw [hscan] at h
          simp only [Option.some_inj, Prod.mk.injEq] at h
          rw [← h.1]
          exact h0
      | retry =>
          rw [hscan] at h
          exact ih h0 h
      | full =>
          rw [hscan] at h
          exact ih h0 h

lemma insertScan_no_retry [DecidableEq K] (tbl : List (Slot K)) (key : K) :
    ∀ probes, insertScan false tbl key probes ≠ InsRes.retry := by
  intro probes
  induction probes with
  | nil =>
      intro h
      simp [insertScan] at h
  | cons s rest ih =>
      intro h
      simp only [insertScan, Bool.false_eq_true, if_false] at h
      cases hslot : slotAt tbl s with
      | empty => rw [hslot] at h; cases h
      | tomb => rw [hslot] at h; cases h
      | occ e =>
          simp only [hslot] at h
          by_cases hk : e.first = key
          · rw [if_pos hk] at h; cases h
          · rw [if_neg hk] at h; exact ih h

lemma removeScan_no_retry [DecidableEq K] (tbl : List (Slot K))
    (del : List (Elem K)) (key : K) :
    ∀ probes, removeScan false tbl del key probes ≠ RemRes.retry := by
  intro probes
  induction probes with
  | nil =>
      intro h
      simp [removeScan] at h
  | cons s rest ih =>
      intro h
      simp only [removeScan, Bool.false_eq_true, if_false] at h
      cases hslot : slotAt tbl s with
      | empty => rw [hslot] at h; cases h
      | tomb => rw [hslot] at h; cases h
      | occ e =>
          simp only [hslot] at h
          by_cases hk : e.first = key
          · rw [if_pos hk] at h; cases h
          · rw [if_neg hk] at h; exact ih h

/-- C9.  In every reachable state the `resizing` flag of the current
generation is `false` — no operation ever sets it — so the
re-validation branch of `insert` and `remove` (`goto retry`) can never
be taken, and both early-abort checks of `resize` never fire (`resize`
always proceeds to its doubling loop). -/
theorem c9_resizing_always_false [DecidableEq K] [HashFn K] {st : SHC K}
    (h : Reachable st) :
    st.cfg.resizing = false ∧
    (∀ (key : K) (probes : List Nat),
      insertScan st.cfg.resizing st.cfg.table key probes ≠ InsRes.retry) ∧
    (∀ (key : K) (del : List (Elem K)) (probes : List Nat),
      removeScan st.cfg.resizing st.cfg.table del key probes ≠ RemRes.retry) ∧
    (∀ (mc : Nat) (rd : Nat → Int) (fuel : Nat),
      resize mc st.cfg rd fuel =
        resizeLoop mc st.cfg rd st.cfg.table.length fuel) := by
  have hmain : st.cfg.resizing = false := by
    induction h with
    | init sz mc d => rfl
    | ins key rd rsFuel fuel hreach hrun ih => exact insertLoop_resizing ih hrun
    | rem key fuel hreach hrun ih => exact removeLoop_resizing ih hrun
  refine ⟨hmain, ?_, ?_, ?_⟩
  · intro key probes
    rw [hmain]
    exact insertScan_no_retry st.cfg.table key probes
  · intro key del probes
    rw [hmain]
    exact removeScan_no_retry st.cfg.table del key probes
  · intro mc rd fuel
    rw [resize, hmain]
    simp

theorem c9_resizing_always_false_witness :
    (SHC.init Int 8 8 1).cfg.resizing = false :=
  (c9_resizing_always_false (Reachable.init 8 8 1)).1

end SSFI

